import Mathlib

/-!
Verification of the infinite-square-well animation program.

The program evaluates a truncated eigenfunction expansion of a particle in a
one-dimensional box: Fourier coefficients of the initial state, the
time-dependent wavefunction, and per-frame probability densities.  All
floating-point quantities are modelled as real numbers, complex arrays
pointwise as functions into the complex numbers.
-/

namespace SillyWave

noncomputable section

/-- Box length in meters (source: a = 1e-10). -/
def a : ℝ := 1e-10

/-- Electron mass in kg (source: m = 9.10938356e-31). -/
def m : ℝ := 9.10938356e-31

/-- Reduced Planck constant in J*s (source: hbar = 1.054571817e-34). -/
def hbar : ℝ := 1.054571817e-34

/-- Characteristic time from the ground state (source: tau = 2*m*a**2/(pi**2*hbar)). -/
def tau : ℝ := 2 * m * a ^ 2 / (Real.pi ^ 2 * hbar)

/-- Total animated time (source: t_max = 10*tau). -/
def t_max : ℝ := 10 * tau

/-- Truncation order (source: Nmax = 50). -/
def Nmax : ℕ := 50

/-- Fourier coefficient of the initial state (source function c_n). -/
def c_n (n : ℕ) : ℝ :=
  if n = 2 then Real.sqrt 2 / 2
  else Real.sqrt 2 / Real.pi *
    (Real.sin ((2 - (n : ℝ)) * Real.pi / 2) / (2 - (n : ℝ)) -
      Real.sin ((2 + (n : ℝ)) * Real.pi / 2) / (2 + (n : ℝ)))

/-- Time-evolution factor of mode n (source: phase in psi). -/
def phase (n : ℕ) (t : ℝ) : ℂ :=
  Complex.exp (-Complex.I * (n : ℂ) ^ 2 * (Real.pi : ℂ) ^ 2 * (hbar : ℂ) * (t : ℂ) /
    (2 * (m : ℂ) * (a : ℂ) ^ 2))

/-- Wavefunction evaluator (source function psi); the accumulation loop over
n in range(1, Nmax+1) is the sum over the integer interval [1, Nmax]. -/
def psi (x t : ℝ) : ℂ :=
  ∑ n in Finset.Icc 1 Nmax,
    (c_n n : ℂ) * (Real.sqrt (2 / a) : ℂ) * (Real.sin ((n : ℝ) * Real.pi * x / a) : ℂ) *
      phase n t

/-- Time sample of the animation (source: frames = np.linspace(0, t_max, 200)). -/
def frames (k : ℕ) : ℝ := (k : ℝ) * t_max / 199

/-- Density drawn by the init code path: np.abs(psi(x, 0))**2. -/
def initDensity (x : ℝ) : ℝ := Complex.abs (psi x 0) ^ 2

/-- Density drawn by the update code path at time t: np.abs(psi(x, t))**2. -/
def updateDensity (t x : ℝ) : ℝ := Complex.abs (psi x t) ^ 2

/-- Eigenvalue exactly as the spec contract words it: E_n = n^2 pi^2 hbar/(2 m a^2). -/
def E_spec (n : ℕ) : ℝ := (n : ℝ) ^ 2 * Real.pi ^ 2 * hbar / (2 * m * a ^ 2)

/-- Wavefunction exactly as the spec contract words it, with the phase
exp(-i E_n t / hbar) built from E_spec. -/
def psiSpec (x t : ℝ) : ℂ :=
  ∑ n in Finset.Icc 1 Nmax,
    (c_n n : ℂ) * (Real.sqrt (2 / a) : ℂ) * (Real.sin ((n : ℝ) * Real.pi * x / a) : ℂ) *
      Complex.exp (-Complex.I * (E_spec n : ℂ) * (t : ℂ) / (hbar : ℂ))

/-- The general branch of c_n read as a function of a real mode variable,
used to express the removable singularity at n = 2. -/
def cGeneral (s : ℝ) : ℝ :=
  Real.sqrt 2 / Real.pi *
    (Real.sin ((2 - s) * Real.pi / 2) / (2 - s) - Real.sin ((2 + s) * Real.pi / 2) / (2 + s))

/-- The time at which all phase factors of the literal spec formula return
to 1, used to separate the phases of the code from the phases of the spec. -/
def tstar : ℝ := 4 * m * a ^ 2 / Real.pi

/-- The general branch of c_n with its two integer denominators checked
before dividing, to witness that no division by zero occurs. -/
def c_n_checked (n : ℕ) : Option ℝ :=
  if n = 2 then some (Real.sqrt 2 / 2)
  else if 2 - (n : ℤ) = 0 ∨ 2 + (n : ℤ) = 0 then none
  else some (Real.sqrt 2 / Real.pi *
    (Real.sin ((2 - (n : ℝ)) * Real.pi / 2) / (2 - (n : ℝ)) -
      Real.sin ((2 + (n : ℝ)) * Real.pi / 2) / (2 + (n : ℝ))))

/-! ### Basic trigonometric helpers -/

lemma sin_two_sub (r : ℝ) : Real.sin ((2 - r) * Real.pi / 2) = Real.sin (r * Real.pi / 2) := by
  have h : (2 - r) * Real.pi / 2 = Real.pi - r * Real.pi / 2 := by ring
  rw [h, Real.sin_pi_sub]

lemma sin_two_add (r : ℝ) : Real.sin ((2 + r) * Real.pi / 2) = -Real.sin (r * Real.pi / 2) := by
  have h : (2 + r) * Real.pi / 2 = r * Real.pi / 2 + Real.pi := by ring
  rw [h, Real.sin_add_pi]

lemma sin_half_even {n : ℕ} (he : Even n) : Real.sin ((n : ℝ) * Real.pi / 2) = 0 := by
  obtain ⟨k, hk⟩ := he
  subst hk
  push_cast
  have h : ((k : ℝ) + k) * Real.pi / 2 = (k : ℝ) * Real.pi := by ring
  rw [h, Real.sin_nat_mul_pi]

lemma sin_half_odd {n : ℕ} (ho : Odd n) :
    ∃ k : ℕ, n = 2 * k + 1 ∧ Real.sin ((n : ℝ) * Real.pi / 2) = (-1 : ℝ) ^ k := by
  obtain ⟨k, hk⟩ := ho
  refine ⟨k, hk, ?_⟩
  subst hk
  push_cast
  have h : ((2 : ℝ) * k + 1) * Real.pi / 2 = ((k : ℕ) + 1 : ℕ) * Real.pi - Real.pi / 2 := by
    push_cast; ring
  rw [h, Real.sin_nat_mul_pi_sub]
  rw [Real.sin_pi_div_two]
  rw [pow_succ]
  ring

lemma sin_half_odd_sq {n : ℕ} (ho : Odd n) : Real.sin ((n : ℝ) * Real.pi / 2) ^ 2 = 1 := by
  obtain ⟨k, -, hs⟩ := sin_half_odd ho
  rw [hs]
  rw [← pow_mul, mul_comm k 2, pow_mul]
  norm_num

/-- For n different from 2 the coefficient collapses to a single fraction. -/
lemma c_n_closed {n : ℕ} (h2 : n ≠ 2) :
    c_n n = Real.sqrt 2 / Real.pi * (4 * Real.sin ((n : ℝ) * Real.pi / 2) / (4 - (n : ℝ) ^ 2)) := by
  have hne : (n : ℝ) ≠ 2 := by exact_mod_cast h2
  have hsub : (2 : ℝ) - n ≠ 0 := by
    intro h; apply hne; linarith
  have hadd : (2 : ℝ) + n ≠ 0 := by positivity
  have h4 : (4 : ℝ) - (n : ℝ) ^ 2 ≠ 0 := by
    have hf : (2 - (n : ℝ)) * (2 + (n : ℝ)) = 4 - (n : ℝ) ^ 2 := by ring
    rw [← hf]
    exact mul_ne_zero hsub hadd
  rw [c_n, if_neg h2, sin_two_sub, sin_two_add]
  field_simp
  ring

/-! ### Claim theorems: coefficient behaviour -/

/-- C2: for every mode index n with 1 ≤ n and n ≠ 2, the coefficient
generator returns the closed-form trigonometric expression
(sqrt 2 / pi) * (sin((2-n) pi/2)/(2-n) - sin((2+n) pi/2)/(2+n)). -/
theorem c_n_general_formula (n : ℕ) (h1 : 1 ≤ n) (h2 : n ≠ 2) :
    c_n n = Real.sqrt 2 / Real.pi *
      (Real.sin ((2 - (n : ℝ)) * Real.pi / 2) / (2 - (n : ℝ)) -
        Real.sin ((2 + (n : ℝ)) * Real.pi / 2) / (2 + (n : ℝ))) := by
  rw [c_n, if_neg h2]

/-- Witness for C2 at n = 3. -/
theorem c_n_general_formula_witness :
    c_n 3 = Real.sqrt 2 / Real.pi *
      (Real.sin ((2 - (3 : ℝ)) * Real.pi / 2) / (2 - (3 : ℝ)) -
        Real.sin ((2 + (3 : ℝ)) * Real.pi / 2) / (2 + (3 : ℝ))) := by
  have h := c_n_general_formula 3 (by norm_num) (by norm_num)
  simpa using h

/-- C8: for every positive integer mode index, evaluating the coefficient
performs no division by zero: the checked evaluator succeeds and agrees
with the plain one. -/
theorem c_n_safe (n : ℕ) (h : 1 ≤ n) : c_n_checked n = some (c_n n) := by
  rcases eq_or_ne n 2 with rfl | h2
  · rw [c_n_checked, if_pos rfl, c_n, if_pos rfl]
  · have hz : ¬(2 - (n : ℤ) = 0 ∨ 2 + (n : ℤ) = 0) := by
      push_neg
      omega
    rw [c_n_checked, if_neg h2, if_neg hz, c_n, if_neg h2]

/-- Witness for C8 at n = 1. -/
theorem c_n_safe_witness : c_n_checked 1 = some (c_n 1) :=
  c_n_safe 1 (by norm_num)

/-- C9: every even mode index n ≥ 4 has a vanishing coefficient. -/
theorem c_n_even_zero (n : ℕ) (he : Even n) (h4 : 4 ≤ n) : c_n n = 0 := by
  have h2 : n ≠ 2 := by omega
  rw [c_n_closed h2, sin_half_even he]
  simp

/-- Witness for C9 at n = 4. -/
theorem c_n_even_zero_witness : c_n 4 = 0 :=
  c_n_even_zero 4 (by decide) (by norm_num)

/-- C3: the n = 2 branch returns sqrt 2 / 2, and this value is the limit of
the general closed-form expression as the real mode variable tends to 2. -/
theorem c_n_two_is_limit :
    c_n 2 = Real.sqrt 2 / 2 ∧
      Filter.Tendsto cGeneral (nhdsWithin 2 {(2 : ℝ)}ᶜ) (nhds (Real.sqrt 2 / 2)) := by
  constructor
  · rw [c_n]
    norm_num
  · have hpi : Real.pi ≠ 0 := Real.pi_ne_zero
    set φ : ℝ → ℝ := fun s => (2 - s) * (Real.pi / 2) with hφdef
    have hφ : Filter.Tendsto φ (nhdsWithin 2 {(2 : ℝ)}ᶜ) (nhdsWithin 0 {(0 : ℝ)}ᶜ) := by
      rw [tendsto_nhdsWithin_iff]
      constructor
      · have hcont : Continuous φ := by fun_prop
        have hc := hcont.tendsto 2
        have h2 : φ 2 = 0 := by simp [hφdef]
        rw [h2] at hc
        exact hc.mono_left nhdsWithin_le_nhds
      · filter_upwards [self_mem_nhdsWithin] with s hs
        have hs2 : s ≠ 2 := hs
        simp only [Set.mem_compl_iff, Set.mem_singleton_iff, hφdef]
        intro h
        rcases mul_eq_zero.1 h with h | h
        · exact hs2 (by linarith)
        · have : Real.pi = 0 := by linarith
          exact hpi this
    have hslope : Filter.Tendsto (fun u : ℝ => Real.sin u / u)
        (nhdsWithin 0 {(0 : ℝ)}ᶜ) (nhds 1) := by
      have hd : HasDerivAt Real.sin (Real.cos 0) 0 := Real.hasDerivAt_sin 0
      rw [hasDerivAt_iff_tendsto_slope, Real.cos_zero] at hd
      refine hd.congr fun u => ?_
      rw [slope_def_field]
      simp
    have hcomp : Filter.Tendsto (fun s => Real.sin (φ s) / φ s)
        (nhdsWithin 2 {(2 : ℝ)}ᶜ) (nhds 1) := hslope.comp hφ
    have hg : Filter.Tendsto (fun s => Real.sin ((2 - s) * Real.pi / 2) / (2 - s))
        (nhdsWithin 2 {(2 : ℝ)}ᶜ) (nhds (Real.pi / 2)) := by
      have heq : ∀ s : ℝ, Real.sin ((2 - s) * Real.pi / 2) / (2 - s)
          = Real.pi / 2 * (Real.sin (φ s) / φ s) := by
        intro s
        rcases eq_or_ne s 2 with rfl | hs
        · simp [hφdef]
        · have h2s : (2 : ℝ) - s ≠ 0 := fun h => hs (by linarith)
          have hφs : φ s ≠ 0 := by
            simp only [hφdef]
            exact mul_ne_zero h2s (by positivity)
          have harg : (2 - s) * Real.pi / 2 = φ s := by
            simp only [hφdef]
            ring
          rw [harg]
          rw [hφdef]
          field_simp
          ring
      have hmul := hcomp.const_mul (Real.pi / 2)
      simp only [heq]
      simpa using hmul
    have hh : Filter.Tendsto (fun s => Real.sin ((2 + s) * Real.pi / 2) / (2 + s))
        (nhdsWithin 2 {(2 : ℝ)}ᶜ) (nhds 0) := by
      have hnum : Filter.Tendsto (fun s : ℝ => Real.sin ((2 + s) * Real.pi / 2))
          (nhds 2) (nhds 0) := by
        have hc2 : Continuous fun s : ℝ => Real.sin ((2 + s) * Real.pi / 2) := by fun_prop
        have ht := hc2.tendsto 2
        simp only [] at ht
        have hv : Real.sin ((2 + (2 : ℝ)) * Real.pi / 2) = 0 := by
          have harg : ((2 : ℝ) + 2) * Real.pi / 2 = 2 * Real.pi := by ring
          rw [harg, Real.sin_two_pi]
        rwa [hv] at ht
      have hden : Filter.Tendsto (fun s : ℝ => 2 + s) (nhds 2) (nhds 4) := by
        have hc2 : Continuous fun s : ℝ => 2 + s := by fun_prop
        have ht := hc2.tendsto 2
        norm_num at ht
        exact ht
      have hq := hnum.div hden (by norm_num)
      norm_num at hq
      exact hq.mono_left nhdsWithin_le_nhds
    have hfinal := (hg.sub hh).const_mul (Real.sqrt 2 / Real.pi)
    have hval : Real.sqrt 2 / Real.pi * (Real.pi / 2 - 0) = Real.sqrt 2 / 2 := by
      field_simp
    rw [hval] at hfinal
    have hfun : ∀ s : ℝ, Real.sqrt 2 / Real.pi *
        (Real.sin ((2 - s) * Real.pi / 2) / (2 - s) -
          Real.sin ((2 + s) * Real.pi / 2) / (2 + s)) = cGeneral s := by
      intro s
      rw [cGeneral]
    simpa only [hfun] using hfinal

/-! ### Claim theorems: frames -/

/-- C6: every frame value is a nonnegative real: the density computed by
update is nonnegative at every time and every spatial point. -/
theorem frame_nonneg : ∀ (t x : ℝ), 0 ≤ updateDensity t x := by
  intro t x
  unfold updateDensity
  positivity

/-- C7: the initial frame is the same along both code paths: update applied
to the first time sample (which is 0) computes the same density as init. -/
theorem init_update_agree : ∀ x : ℝ, updateDensity (frames 0) x = initDensity x := by
  intro x
  have h0 : frames 0 = 0 := by
    rw [frames]
    norm_num
  rw [h0, updateDensity, initDensity]

/-- C10: the wavefunction vanishes at both walls of the box at every time. -/
theorem box_boundary (t : ℝ) : psi 0 t = 0 ∧ psi a t = 0 := by
  have ha : a ≠ 0 := by norm_num [a]
  constructor
  · refine Finset.sum_eq_zero fun n hn => ?_
    have h : (n : ℝ) * Real.pi * 0 / a = 0 := by ring
    rw [h, Real.sin_zero]
    simp
  · refine Finset.sum_eq_zero fun n hn => ?_
    have h : (n : ℝ) * Real.pi * a / a = (n : ℝ) * Real.pi := by field_simp
    rw [h, Real.sin_nat_mul_pi]
    simp

/-! ### Positivity of the physical constants -/

lemma a_pos : (0 : ℝ) < a := by norm_num [a]

lemma m_pos : (0 : ℝ) < m := by norm_num [m]

lemma hbar_pos : (0 : ℝ) < hbar := by norm_num [hbar]

lemma tau_pos : (0 : ℝ) < tau := by
  rw [tau]
  have hπ := Real.pi_pos
  have ha := a_pos
  have hm := m_pos
  have hh := hbar_pos
  positivity

/-! ### Periodicity at integer multiples of the fundamental period -/

lemma phase_revival (n : ℕ) (k : ℤ) : phase n ((k : ℝ) * (2 * Real.pi * tau)) = 1 := by
  have hm : (m : ℂ) ≠ 0 := Complex.ofReal_ne_zero.mpr (ne_of_gt m_pos)
  have ha : (a : ℂ) ≠ 0 := Complex.ofReal_ne_zero.mpr (ne_of_gt a_pos)
  have hh : (hbar : ℂ) ≠ 0 := Complex.ofReal_ne_zero.mpr (ne_of_gt hbar_pos)
  have hπ : (Real.pi : ℂ) ≠ 0 := Complex.ofReal_ne_zero.mpr Real.pi_ne_zero
  rw [phase]
  have harg : -Complex.I * (n : ℂ) ^ 2 * (Real.pi : ℂ) ^ 2 * (hbar : ℂ) *
      (((k : ℝ) * (2 * Real.pi * tau) : ℝ) : ℂ) / (2 * (m : ℂ) * (a : ℂ) ^ 2)
      = ((-(n ^ 2 : ℤ) * k : ℤ) : ℂ) * (2 * (Real.pi : ℂ) * Complex.I) := by
    rw [tau]
    push_cast
    field_simp
    ring
  rw [harg]
  exact Complex.exp_int_mul_two_pi_mul_I _

lemma phase_zero (n : ℕ) : phase n 0 = 1 := by
  rw [phase]
  norm_num

lemma psi_revival (x : ℝ) (k : ℤ) : psi x ((k : ℝ) * (2 * Real.pi * tau)) = psi x 0 := by
  unfold psi
  refine Finset.sum_congr rfl fun n hn => ?_
  rw [phase_revival, phase_zero]

/-- C5 counterexample: the total animated time t_max = 10 tau set up by the
code is not an integer multiple of the fundamental period 2 pi tau of the
expansion, so the stated condition of the claim fails on the code. -/
theorem t_max_not_multiple_of_period : ¬ ∃ k : ℤ, t_max = (k : ℝ) * (2 * Real.pi * tau) := by
  rintro ⟨k, hk⟩
  rw [t_max] at hk
  have h10 : (10 : ℝ) = (k : ℝ) * (2 * Real.pi) :=
    mul_right_cancel₀ (ne_of_gt tau_pos) (by linear_combination hk)
  rcases eq_or_ne k 0 with rfl | hkz
  · norm_num at h10
  · have hk0 : (k : ℝ) ≠ 0 := Int.cast_ne_zero.mpr hkz
    have hπ : Real.pi = 5 / (k : ℝ) := by
      field_simp
      linarith
    exact irrational_pi ⟨5 / (k : ℚ), by push_cast; exact hπ.symm⟩

/-- C5 (amended): at every time that is an integer multiple of the
fundamental period 2 pi tau, the probability density equals the initial
density exactly, at every spatial point. -/
theorem density_revival_at_period_multiples :
    ∀ (x : ℝ) (k : ℤ), updateDensity ((k : ℝ) * (2 * Real.pi * tau)) x = updateDensity 0 x := by
  intro x k
  rw [updateDensity, updateDensity, psi_revival]

/-! ### C1: the accumulation loop against the spec contract -/

/-- C1 (amended): psi computes the truncated expansion with phase factors
exp(-i E_n t / hbar) for the physical eigenvalue E_n = n^2 pi^2 hbar^2 / (2 m a^2);
the eigenvalue formula in the spec contract is missing one factor of hbar. -/
theorem psi_truncated_expansion :
    ∀ (x t : ℝ),
      psi x t = ∑ n in Finset.Icc 1 Nmax,
        (c_n n : ℂ) * (Real.sqrt (2 / a) : ℂ) * (Real.sin ((n : ℝ) * Real.pi * x / a) : ℂ) *
          Complex.exp (-Complex.I *
            (((n : ℝ) ^ 2 * Real.pi ^ 2 * hbar ^ 2 / (2 * m * a ^ 2) : ℝ) : ℂ) * (t : ℂ) /
              (hbar : ℂ)) := by
  intro x t
  unfold psi
  refine Finset.sum_congr rfl fun n hn => ?_
  congr 1
  rw [phase]
  congr 1
  have hm : (m : ℂ) ≠ 0 := Complex.ofReal_ne_zero.mpr (ne_of_gt m_pos)
  have ha : (a : ℂ) ≠ 0 := Complex.ofReal_ne_zero.mpr (ne_of_gt a_pos)
  have hh : (hbar : ℂ) ≠ 0 := Complex.ofReal_ne_zero.mpr (ne_of_gt hbar_pos)
  push_cast
  field_simp
  ring

lemma term_im (r θ : ℝ) :
    ((r : ℂ) * Complex.exp (-Complex.I * (θ : ℂ))).im = -(r * Real.sin θ) := by
  have h : -Complex.I * (θ : ℂ) = ((-θ : ℝ) : ℂ) * Complex.I := by
    push_cast
    ring
  rw [h, Complex.mul_im, Complex.exp_ofReal_mul_I_im]
  simp [Real.sin_neg]

lemma phase_exponent (n : ℕ) (t : ℝ) :
    phase n t = Complex.exp (-Complex.I *
      (((n : ℝ) ^ 2 * Real.pi ^ 2 * hbar * t / (2 * m * a ^ 2) : ℝ) : ℂ)) := by
  rw [phase]
  congr 1
  push_cast
  ring

lemma term_im3 (r₁ r₂ r₃ θ : ℝ) :
    ((r₁ : ℂ) * (r₂ : ℂ) * (r₃ : ℂ) * Complex.exp (-Complex.I * (θ : ℂ))).im
      = -(r₁ * r₂ * r₃ * Real.sin θ) := by
  have h : (r₁ : ℂ) * (r₂ : ℂ) * (r₃ : ℂ) * Complex.exp (-Complex.I * (θ : ℂ))
      = ((r₁ * r₂ * r₃ : ℝ) : ℂ) * Complex.exp (-Complex.I * (θ : ℂ)) := by
    push_cast
    ring
  rw [h, term_im]

lemma psi_im (x t : ℝ) :
    (psi x t).im = ∑ n in Finset.Icc 1 Nmax,
      -(c_n n * Real.sqrt (2 / a) * Real.sin ((n : ℝ) * Real.pi * x / a) *
        Real.sin ((n : ℝ) ^ 2 * Real.pi ^ 2 * hbar * t / (2 * m * a ^ 2))) := by
  rw [psi, Complex.im_sum]
  refine Finset.sum_congr rfl fun n hn => ?_
  rw [phase_exponent]
  exact term_im3 _ _ _ _

lemma psiSpec_im (x t : ℝ) :
    (psiSpec x t).im = ∑ n in Finset.Icc 1 Nmax,
      -(c_n n * Real.sqrt (2 / a) * Real.sin ((n : ℝ) * Real.pi * x / a) *
        Real.sin (E_spec n * t / hbar)) := by
  rw [psiSpec, Complex.im_sum]
  refine Finset.sum_congr rfl fun n hn => ?_
  have harg : -Complex.I * (E_spec n : ℂ) * (t : ℂ) / (hbar : ℂ)
      = -Complex.I * ((E_spec n * t / hbar : ℝ) : ℂ) := by
    push_cast
    ring
  rw [harg]
  exact term_im3 _ _ _ _

lemma spec_angle (n : ℕ) : E_spec n * tstar / hbar = (2 * n ^ 2 : ℕ) * Real.pi := by
  have hm : m ≠ 0 := ne_of_gt m_pos
  have ha : a ≠ 0 := ne_of_gt a_pos
  have hh : hbar ≠ 0 := ne_of_gt hbar_pos
  have hπ : Real.pi ≠ 0 := Real.pi_ne_zero
  rw [E_spec, tstar]
  push_cast
  field_simp
  ring

lemma code_angle (n : ℕ) :
    (n : ℝ) ^ 2 * Real.pi ^ 2 * hbar * tstar / (2 * m * a ^ 2)
      = 2 * Real.pi * (n : ℝ) ^ 2 * hbar := by
  have hm : m ≠ 0 := ne_of_gt m_pos
  have ha : a ≠ 0 := ne_of_gt a_pos
  have hπ : Real.pi ≠ 0 := Real.pi_ne_zero
  rw [tstar]
  field_simp
  ring

lemma sin_half_point (n : ℕ) :
    Real.sin ((n : ℝ) * Real.pi * (a / 2) / a) = Real.sin ((n : ℝ) * Real.pi / 2) := by
  have ha : a ≠ 0 := ne_of_gt a_pos
  congr 1
  field_simp
  ring

lemma psiSpec_im_tstar : (psiSpec (a / 2) tstar).im = 0 := by
  rw [psiSpec_im]
  refine Finset.sum_eq_zero fun n hn => ?_
  rw [spec_angle, Real.sin_nat_mul_pi]
  ring

lemma hbar_small : hbar ≤ 1e-33 := by norm_num [hbar]

lemma code_angle_nonneg (n : ℕ) : 0 ≤ 2 * Real.pi * (n : ℝ) ^ 2 * hbar := by
  have hπ := Real.pi_pos
  have hh := hbar_pos
  positivity

lemma code_angle_le_pi {n : ℕ} (hn : n ≤ 50) : 2 * Real.pi * (n : ℝ) ^ 2 * hbar ≤ Real.pi := by
  have hπ := Real.pi_pos
  have hb : (n : ℝ) ≤ 50 := by exact_mod_cast hn
  have hb0 : (0 : ℝ) ≤ (n : ℝ) := Nat.cast_nonneg n
  have hsq : (n : ℝ) ^ 2 ≤ 2500 := by nlinarith
  have key : 2 * (n : ℝ) ^ 2 * hbar ≤ 1 := by
    have hs : (n : ℝ) ^ 2 * hbar ≤ 2500 * 1e-33 := by
      have := hbar_small
      have := hbar_pos
      nlinarith [sq_nonneg ((n : ℝ))]
    linarith
  calc 2 * Real.pi * (n : ℝ) ^ 2 * hbar = Real.pi * (2 * (n : ℝ) ^ 2 * hbar) := by ring
    _ ≤ Real.pi * 1 := by
        exact mul_le_mul_of_nonneg_left key (le_of_lt hπ)
    _ = Real.pi := mul_one _

lemma term_nonpos {n : ℕ} (hn : n ∈ Finset.Icc 1 Nmax) (h1 : n ≠ 1) (h3 : n ≠ 3) :
    c_n n * Real.sin ((n : ℝ) * Real.pi / 2) * Real.sin (2 * Real.pi * (n : ℝ) ^ 2 * hbar)
      ≤ 0 := by
  rw [Finset.mem_Icc, Nmax] at hn
  rcases Nat.even_or_odd n with he | ho
  · rw [sin_half_even he]
    simp
  · have h2 : n ≠ 2 := by
      rintro rfl
      rw [Nat.odd_iff] at ho
      norm_num at ho
    have h5 : 5 ≤ n := by
      obtain ⟨k, hk⟩ := ho
      omega
    rw [c_n_closed h2]
    have hform : Real.sqrt 2 / Real.pi *
          (4 * Real.sin ((n : ℝ) * Real.pi / 2) / (4 - (n : ℝ) ^ 2)) *
          Real.sin ((n : ℝ) * Real.pi / 2) * Real.sin (2 * Real.pi * (n : ℝ) ^ 2 * hbar)
        = Real.sqrt 2 / Real.pi * (4 / (4 - (n : ℝ) ^ 2)) *
          Real.sin ((n : ℝ) * Real.pi / 2) ^ 2 *
          Real.sin (2 * Real.pi * (n : ℝ) ^ 2 * hbar) := by
      ring
    rw [hform, sin_half_odd_sq ho, mul_one]
    have hn2 : (4 : ℝ) - (n : ℝ) ^ 2 < 0 := by
      have h5r : (5 : ℝ) ≤ (n : ℝ) := by exact_mod_cast h5
      nlinarith
    have hsin : 0 ≤ Real.sin (2 * Real.pi * (n : ℝ) ^ 2 * hbar) :=
      Real.sin_nonneg_of_nonneg_of_le_pi (code_angle_nonneg n) (code_angle_le_pi hn.2)
    have hfrac : Real.sqrt 2 / Real.pi * (4 / (4 - (n : ℝ) ^ 2)) ≤ 0 := by
      have hpos : 0 ≤ Real.sqrt 2 / Real.pi := by
        have := Real.pi_pos
        positivity
      have hneg : 4 / (4 - (n : ℝ) ^ 2) ≤ 0 :=
        le_of_lt (div_neg_of_pos_of_neg (by norm_num) hn2)
      exact mul_nonpos_iff.mpr (Or.inl ⟨hpos, hneg⟩)
    exact mul_nonpos_iff.mpr (Or.inr ⟨hfrac, hsin⟩)

lemma c1_val : c_n 1 = Real.sqrt 2 / Real.pi * (4 / 3) := by
  rw [c_n_closed (by norm_num)]
  have h : ((1 : ℕ) : ℝ) * Real.pi / 2 = Real.pi / 2 := by
    push_cast
    ring
  rw [h, Real.sin_pi_div_two]
  norm_num

lemma c3_val : c_n 3 = Real.sqrt 2 / Real.pi * (4 / 5) := by
  rw [c_n_closed (by norm_num)]
  have h : ((3 : ℕ) : ℝ) * Real.pi / 2 = Real.pi / 2 + Real.pi := by
    push_cast
    ring
  rw [h, Real.sin_add_pi, Real.sin_pi_div_two]
  norm_num

lemma sum_S_neg :
    (∑ n in Finset.Icc 1 Nmax,
      c_n n * Real.sin ((n : ℝ) * Real.pi / 2) *
        Real.sin (2 * Real.pi * (n : ℝ) ^ 2 * hbar)) < 0 := by
  have h1mem : (1 : ℕ) ∈ Finset.Icc 1 Nmax := by
    rw [Finset.mem_Icc, Nmax]
    omega
  rw [Finset.sum_eq_add_sum_diff_singleton h1mem]
  have h3mem : (3 : ℕ) ∈ Finset.Icc 1 Nmax \ {1} := by
    rw [Finset.mem_sdiff, Finset.mem_Icc, Finset.mem_singleton, Nmax]
    omega
  rw [Finset.sum_eq_add_sum_diff_singleton h3mem]
  have hrest : (∑ n in (Finset.Icc 1 Nmax \ {1}) \ {3},
      c_n n * Real.sin ((n : ℝ) * Real.pi / 2) *
        Real.sin (2 * Real.pi * (n : ℝ) ^ 2 * hbar)) ≤ 0 := by
    refine Finset.sum_nonpos fun n hn => ?_
    simp only [Finset.mem_sdiff, Finset.mem_singleton] at hn
    exact term_nonpos hn.1.1 hn.1.2 hn.2
  have hπ := Real.pi_pos
  have hh := hbar_pos
  have hs1 : Real.sin (2 * Real.pi * ((1 : ℕ) : ℝ) ^ 2 * hbar) ≤ 2 * Real.pi * hbar := by
    have h : 2 * Real.pi * ((1 : ℕ) : ℝ) ^ 2 * hbar = 2 * Real.pi * hbar := by
      push_cast
      ring
    rw [h]
    exact Real.sin_le (by positivity)
  have hsin1 : Real.sin (((1 : ℕ) : ℝ) * Real.pi / 2) = 1 := by
    have h : ((1 : ℕ) : ℝ) * Real.pi / 2 = Real.pi / 2 := by
      push_cast
      ring
    rw [h, Real.sin_pi_div_two]
  have hf1 : c_n 1 * Real.sin (((1 : ℕ) : ℝ) * Real.pi / 2) *
      Real.sin (2 * Real.pi * ((1 : ℕ) : ℝ) ^ 2 * hbar) ≤ 8 / 3 * (Real.sqrt 2 * hbar) := by
    rw [c1_val, hsin1, mul_one]
    have hfac : 0 ≤ Real.sqrt 2 / Real.pi * (4 / 3) := by positivity
    calc Real.sqrt 2 / Real.pi * (4 / 3) * Real.sin (2 * Real.pi * ((1 : ℕ) : ℝ) ^ 2 * hbar)
        ≤ Real.sqrt 2 / Real.pi * (4 / 3) * (2 * Real.pi * hbar) :=
          mul_le_mul_of_nonneg_left hs1 hfac
      _ = 8 / 3 * (Real.sqrt 2 * hbar) := by
          field_simp
          ring
  have hsin3 : Real.sin (((3 : ℕ) : ℝ) * Real.pi / 2) = -1 := by
    have h : ((3 : ℕ) : ℝ) * Real.pi / 2 = Real.pi / 2 + Real.pi := by
      push_cast
      ring
    rw [h, Real.sin_add_pi, Real.sin_pi_div_two]
  have hs3 : 9 * Real.pi * hbar ≤ Real.sin (2 * Real.pi * ((3 : ℕ) : ℝ) ^ 2 * hbar) := by
    have h : 2 * Real.pi * ((3 : ℕ) : ℝ) ^ 2 * hbar = 18 * Real.pi * hbar := by
      push_cast
      ring
    rw [h]
    have hx0 : 0 < 18 * Real.pi * hbar := by positivity
    have hx1 : 18 * Real.pi * hbar ≤ 1 := by
      have h4 : Real.pi < 4 := Real.pi_lt_four
      have hsmall := hbar_small
      nlinarith
    have hcube := Real.sin_gt_sub_cube hx0 hx1
    have hx2 : (18 * Real.pi * hbar) ^ 2 ≤ 2 := by nlinarith
    nlinarith
  have hf3 : c_n 3 * Real.sin (((3 : ℕ) : ℝ) * Real.pi / 2) *
      Real.sin (2 * Real.pi * ((3 : ℕ) : ℝ) ^ 2 * hbar) ≤ -(36 / 5 * (Real.sqrt 2 * hbar)) := by
    rw [c3_val, hsin3]
    have hfac : 0 ≤ Real.sqrt 2 / Real.pi * (4 / 5) := by positivity
    have hmul := mul_le_mul_of_nonneg_left hs3 hfac
    have heq : Real.sqrt 2 / Real.pi * (4 / 5) * (9 * Real.pi * hbar)
        = 36 / 5 * (Real.sqrt 2 * hbar) := by
      field_simp
      ring
    have hneg : Real.sqrt 2 / Real.pi * (4 / 5) * (-1) *
        Real.sin (2 * Real.pi * ((3 : ℕ) : ℝ) ^ 2 * hbar)
        = -(Real.sqrt 2 / Real.pi * (4 / 5) *
            Real.sin (2 * Real.pi * ((3 : ℕ) : ℝ) ^ 2 * hbar)) := by
      ring
    rw [hneg]
    rw [heq] at hmul
    linarith
  have hx : 0 < Real.sqrt 2 * hbar := by positivity
  linarith

lemma psi_im_tstar_pos : 0 < (psi (a / 2) tstar).im := by
  rw [psi_im]
  have hrw : ∀ n ∈ Finset.Icc 1 Nmax,
      -(c_n n * Real.sqrt (2 / a) * Real.sin ((n : ℝ) * Real.pi * (a / 2) / a) *
        Real.sin ((n : ℝ) ^ 2 * Real.pi ^ 2 * hbar * tstar / (2 * m * a ^ 2)))
      = Real.sqrt (2 / a) *
          -(c_n n * Real.sin ((n : ℝ) * Real.pi / 2) *
            Real.sin (2 * Real.pi * (n : ℝ) ^ 2 * hbar)) := by
    intro n hn
    rw [sin_half_point, code_angle]
    ring
  rw [Finset.sum_congr rfl hrw, ← Finset.mul_sum]
  have hsq : 0 < Real.sqrt (2 / a) := Real.sqrt_pos.mpr (by have := a_pos; positivity)
  apply mul_pos hsq
  rw [Finset.sum_neg_distrib]
  have := sum_S_neg
  linarith

/-! ### C4: total probability -/

lemma four_sub_sq_ne {n : ℕ} (h2 : n ≠ 2) : (4 : ℝ) - (n : ℝ) ^ 2 ≠ 0 := by
  intro hc
  have hn0 : (0 : ℝ) ≤ (n : ℝ) := Nat.cast_nonneg n
  have h22 : ((n : ℝ) - 2) * ((n : ℝ) + 2) = 0 := by linear_combination -hc
  rcases mul_eq_zero.1 h22 with h | h
  · have : (n : ℝ) = 2 := by linarith
    exact h2 (by exact_mod_cast this)
  · linarith

lemma cn_sq_odd {n : ℕ} (h : n % 2 = 1) :
    (c_n n) ^ 2 = 32 / (Real.pi ^ 2 * (4 - (n : ℝ) ^ 2) ^ 2) := by
  have h2 : n ≠ 2 := by omega
  have hπ : Real.pi ≠ 0 := Real.pi_ne_zero
  have h4 := four_sub_sq_ne h2
  rw [c_n_closed h2, mul_pow, div_pow, div_pow, mul_pow,
    Real.sq_sqrt (by norm_num : (0 : ℝ) ≤ 2), sin_half_odd_sq (Nat.odd_iff.mpr h)]
  field_simp
  ring

lemma cn_sq_even {n : ℕ} (h : n % 2 = 0) (h2 : n ≠ 2) : (c_n n) ^ 2 = 0 := by
  rw [c_n_closed h2, sin_half_even (Nat.even_iff.mpr h)]
  simp

lemma cn_sq_two : (c_n 2) ^ 2 = 1 / 2 := by
  rw [c_n, if_pos rfl, div_pow, Real.sq_sqrt (by norm_num : (0 : ℝ) ≤ 2)]
  norm_num

lemma sum_cn_sq_near_one : |(∑ n in Finset.Icc 1 Nmax, (c_n n) ^ 2) - 1| < 1 / 1000 := by
  have hπa : (3.1415 : ℝ) < Real.pi := Real.pi_gt_d4
  have hπb : Real.pi < 3.1416 := Real.pi_lt_d4
  have hπ2a : (9.869 : ℝ) < Real.pi ^ 2 := by nlinarith
  have hπ2b : Real.pi ^ 2 < (9.8697 : ℝ) := by nlinarith
  have hu1 : (Real.pi ^ 2)⁻¹ < (9.869 : ℝ)⁻¹ := by
    have h := one_div_lt_one_div_of_lt (by norm_num : (0 : ℝ) < 9.869) hπ2a
    rwa [one_div, one_div] at h
  have hu2 : ((9.8697 : ℝ))⁻¹ < (Real.pi ^ 2)⁻¹ := by
    have h := one_div_lt_one_div_of_lt (by positivity) hπ2b
    rwa [one_div, one_div] at h
  rw [Nmax, ← Nat.Ico_succ_right, Finset.sum_Ico_eq_sum_range]
  norm_num [Finset.sum_range_succ, cn_sq_odd, cn_sq_even, cn_sq_two]
  have hsplit : ∀ d : ℝ, 32 / (Real.pi ^ 2 * d) = 32 / d * (Real.pi ^ 2)⁻¹ := by
    intro d
    rw [division_def, division_def, mul_inv]
    ring
  simp only [hsplit]
  rw [abs_lt]
  constructor
  · linarith [hu1, hu2]
  · linarith [hu1, hu2]

lemma integral_cos_int_mul {k : ℤ} (hk : k ≠ 0) :
    ∫ x in (0 : ℝ)..Real.pi, Real.cos ((k : ℝ) * x) = 0 := by
  have hk0 : (k : ℝ) ≠ 0 := Int.cast_ne_zero.mpr hk
  rw [intervalIntegral.integral_comp_mul_left Real.cos hk0, mul_zero,
    integral_cos, Real.sin_zero, Real.sin_int_mul_pi]
  simp

lemma sin_orthogonal (n mm : ℕ) (hn : 1 ≤ n) (hm : 1 ≤ mm) :
    (∫ x in (0 : ℝ)..Real.pi, Real.sin ((n : ℝ) * x) * Real.sin ((mm : ℝ) * x))
      = if n = mm then Real.pi / 2 else 0 := by
  rcases eq_or_ne n mm with rfl | hne
  · rw [if_pos rfl]
    set k : ℤ := 2 * (n : ℤ) with hkd
    have hident : ∀ x : ℝ, Real.sin ((n : ℝ) * x) * Real.sin ((n : ℝ) * x)
        = 1 / 2 - 1 / 2 * Real.cos ((k : ℝ) * x) := by
      intro x
      have harg : ((k : ℤ) : ℝ) * x = (n : ℝ) * x + (n : ℝ) * x := by
        rw [hkd]
        push_cast
        ring
      rw [harg, Real.cos_add]
      have hpy := Real.sin_sq_add_cos_sq ((n : ℝ) * x)
      linear_combination (1 / 2 : ℝ) * hpy
    simp only [hident]
    rw [intervalIntegral.integral_sub intervalIntegrable_const
      ((by fun_prop :
        Continuous fun x : ℝ => 1 / 2 * Real.cos ((k : ℝ) * x)).intervalIntegrable
          0 Real.pi)]
    rw [intervalIntegral.integral_const_mul,
      integral_cos_int_mul (by rw [hkd]; omega : k ≠ 0)]
    rw [intervalIntegral.integral_const]
    simp [smul_eq_mul]
    ring
  · rw [if_neg hne]
    set k1 : ℤ := (n : ℤ) - (mm : ℤ) with hk1d
    set k2 : ℤ := (n : ℤ) + (mm : ℤ) with hk2d
    have hk1 : k1 ≠ 0 := by
      rw [hk1d]
      intro hc
      exact hne (by omega)
    have hk2 : k2 ≠ 0 := by
      rw [hk2d]
      omega
    have hident : ∀ x : ℝ, Real.sin ((n : ℝ) * x) * Real.sin ((mm : ℝ) * x)
        = 1 / 2 * Real.cos ((k1 : ℝ) * x) - 1 / 2 * Real.cos ((k2 : ℝ) * x) := by
      intro x
      have h1 : ((k1 : ℤ) : ℝ) * x = (n : ℝ) * x - (mm : ℝ) * x := by
        rw [hk1d]
        push_cast
        ring
      have h2 : ((k2 : ℤ) : ℝ) * x = (n : ℝ) * x + (mm : ℝ) * x := by
        rw [hk2d]
        push_cast
        ring
      rw [h1, h2, Real.cos_sub, Real.cos_add]
      ring
    simp only [hident]
    rw [intervalIntegral.integral_sub
      ((by fun_prop :
        Continuous fun x : ℝ => 1 / 2 * Real.cos ((k1 : ℝ) * x)).intervalIntegrable 0 Real.pi)
      ((by fun_prop :
        Continuous fun x : ℝ => 1 / 2 * Real.cos ((k2 : ℝ) * x)).intervalIntegrable 0 Real.pi)]
    rw [intervalIntegral.integral_const_mul, intervalIntegral.integral_const_mul,
      integral_cos_int_mul hk1, integral_cos_int_mul hk2]
    norm_num

lemma sin_box_orthogonal {n mm : ℕ} (hn : 1 ≤ n) (hm : 1 ≤ mm) :
    (∫ x in (0 : ℝ)..a,
        Real.sin ((n : ℝ) * Real.pi * x / a) * Real.sin ((mm : ℝ) * Real.pi * x / a))
      = if n = mm then a / 2 else 0 := by
  have ha := a_pos
  have hπ := Real.pi_pos
  have hc : (Real.pi / a) ≠ 0 := by positivity
  have hshape : (∫ x in (0 : ℝ)..a,
        Real.sin ((n : ℝ) * Real.pi * x / a) * Real.sin ((mm : ℝ) * Real.pi * x / a))
      = ∫ x in (0 : ℝ)..a,
          (fun u => Real.sin ((n : ℝ) * u) * Real.sin ((mm : ℝ) * u)) (Real.pi / a * x) := by
    refine intervalIntegral.integral_congr fun x hx => ?_
    simp only
    have h1 : (n : ℝ) * (Real.pi / a * x) = (n : ℝ) * Real.pi * x / a := by ring
    have h2 : (mm : ℝ) * (Real.pi / a * x) = (mm : ℝ) * Real.pi * x / a := by ring
    rw [h1, h2]
  rw [hshape, intervalIntegral.integral_comp_mul_left
    (fun u => Real.sin ((n : ℝ) * u) * Real.sin ((mm : ℝ) * u)) hc, mul_zero]
  have ha2 : Real.pi / a * a = Real.pi := by field_simp
  rw [ha2, sin_orthogonal n mm hn hm]
  rcases eq_or_ne n mm with rfl | hne
  · rw [if_pos rfl, if_pos rfl, smul_eq_mul]
    field_simp
  · rw [if_neg hne, if_neg hne, smul_eq_mul, mul_zero]

lemma phase_normSq (n : ℕ) (t : ℝ) : Complex.normSq (phase n t) = 1 := by
  have h : ∀ θ : ℝ, Complex.normSq (Complex.exp (-Complex.I * (θ : ℂ))) = 1 := by
    intro θ
    rw [← Complex.sq_abs]
    have harg : -Complex.I * (θ : ℂ) = ((-θ : ℝ) : ℂ) * Complex.I := by
      push_cast
      ring
    rw [harg, Complex.abs_exp_ofReal_mul_I]
    norm_num
  rw [phase_exponent]
  exact h _

lemma normSq_psi_expand (x t : ℝ) :
    Complex.normSq (psi x t)
      = ∑ n in Finset.Icc 1 Nmax, ∑ mm in Finset.Icc 1 Nmax,
          (c_n n * c_n mm * Real.sqrt (2 / a) ^ 2 *
            (phase n t * (starRingEnd ℂ) (phase mm t)).re) *
            (Real.sin ((n : ℝ) * Real.pi * x / a) * Real.sin ((mm : ℝ) * Real.pi * x / a)) := by
  have h0 : Complex.normSq (psi x t) = (psi x t * (starRingEnd ℂ) (psi x t)).re := by
    rw [Complex.mul_conj, Complex.ofReal_re]
  rw [h0]
  rw [psi, map_sum, Finset.sum_mul_sum, Complex.re_sum]
  refine Finset.sum_congr rfl fun n hn => ?_
  rw [Complex.re_sum]
  refine Finset.sum_congr rfl fun mm hmm => ?_
  rw [map_mul, map_mul, map_mul, Complex.conj_ofReal, Complex.conj_ofReal, Complex.conj_ofReal]
  have hre : ((c_n n : ℂ) * (Real.sqrt (2 / a) : ℂ) * (Real.sin ((n : ℝ) * Real.pi * x / a) : ℂ) *
        phase n t *
      ((c_n mm : ℂ) * (Real.sqrt (2 / a) : ℂ) * (Real.sin ((mm : ℝ) * Real.pi * x / a) : ℂ) *
        (starRingEnd ℂ) (phase mm t)))
      = ((c_n n * c_n mm * Real.sqrt (2 / a) ^ 2 *
          (Real.sin ((n : ℝ) * Real.pi * x / a) * Real.sin ((mm : ℝ) * Real.pi * x / a)) : ℝ) : ℂ) *
        (phase n t * (starRingEnd ℂ) (phase mm t)) := by
    push_cast
    ring
  rw [hre, Complex.mul_re, Complex.ofReal_re, Complex.ofReal_im]
  ring

lemma integral_density (t : ℝ) :
    (∫ x in (0 : ℝ)..a, updateDensity t x) = ∑ n in Finset.Icc 1 Nmax, (c_n n) ^ 2 := by
  have ha := a_pos
  have hup : ∀ x : ℝ, updateDensity t x = Complex.normSq (psi x t) := by
    intro x
    rw [updateDensity, Complex.sq_abs]
  simp only [hup, normSq_psi_expand]
  rw [intervalIntegral.integral_finset_sum (fun n hn =>
    Continuous.intervalIntegrable (by fun_prop) 0 a)]
  have step2 : ∀ n ∈ Finset.Icc 1 Nmax,
      (∫ x in (0 : ℝ)..a, ∑ mm in Finset.Icc 1 Nmax,
        (c_n n * c_n mm * Real.sqrt (2 / a) ^ 2 *
          (phase n t * (starRingEnd ℂ) (phase mm t)).re) *
          (Real.sin ((n : ℝ) * Real.pi * x / a) * Real.sin ((mm : ℝ) * Real.pi * x / a)))
      = ∑ mm in Finset.Icc 1 Nmax,
          (c_n n * c_n mm * Real.sqrt (2 / a) ^ 2 *
            (phase n t * (starRingEnd ℂ) (phase mm t)).re) * (if n = mm then a / 2 else 0) := by
    intro n hn
    rw [intervalIntegral.integral_finset_sum (fun mm hmm =>
      Continuous.intervalIntegrable (by fun_prop) 0 a)]
    refine Finset.sum_congr rfl fun mm hmm => ?_
    rw [intervalIntegral.integral_const_mul]
    rw [sin_box_orthogonal (Finset.mem_Icc.mp hn).1 (Finset.mem_Icc.mp hmm).1]
  rw [Finset.sum_congr rfl step2]
  have step4 : ∀ n ∈ Finset.Icc 1 Nmax,
      (∑ mm in Finset.Icc 1 Nmax,
        (c_n n * c_n mm * Real.sqrt (2 / a) ^ 2 *
          (phase n t * (starRingEnd ℂ) (phase mm t)).re) * (if n = mm then a / 2 else 0))
      = (c_n n * c_n n * Real.sqrt (2 / a) ^ 2 *
          (phase n t * (starRingEnd ℂ) (phase n t)).re) * (a / 2) := by
    intro n hn
    simp only [mul_ite, mul_zero]
    rw [Finset.sum_ite_eq]
    rw [if_pos hn]
  rw [Finset.sum_congr rfl step4]
  refine Finset.sum_congr rfl fun n hn => ?_
  rw [Complex.mul_conj, Complex.ofReal_re, phase_normSq]
  rw [Real.sq_sqrt (le_of_lt (by positivity : (0 : ℝ) < 2 / a))]
  field_simp
  ring

/-- C4: at every time t, the integral over the box of the computed
probability density equals the sum of the squared coefficients over the
truncated mode range (by orthonormality of the eigenfunctions), and that
total probability is within 1/1000 of 1; in particular it is conserved at
every time, not just t = 0. -/
theorem total_probability (t : ℝ) :
    (∫ x in (0 : ℝ)..a, updateDensity t x) = ∑ n in Finset.Icc 1 Nmax, (c_n n) ^ 2 ∧
      |(∫ x in (0 : ℝ)..a, updateDensity t x) - 1| < 1 / 1000 := by
  refine ⟨integral_density t, ?_⟩
  rw [integral_density t]
  exact sum_cn_sq_near_one

/-- C1 counterexample: at the spatial point a/2 and the time 4 m a^2 / pi,
the wavefunction computed by the code differs from the expansion stated by
the spec contract (whose eigenvalue E_n = n^2 pi^2 hbar/(2 m a^2) makes the
phase exp(-i E_n t/hbar) = exp(-i n^2 pi^2 t/(2 m a^2)), off from the phase of the code by a factor hbar in the exponent). -/
theorem psi_differs_from_spec_contract : psi (a / 2) tstar ≠ psiSpec (a / 2) tstar := by
  intro h
  have h1 := psi_im_tstar_pos
  rw [h, psiSpec_im_tstar] at h1
  exact lt_irrefl 0 h1

end

end SillyWave
